import Mathlib

/-!
Verification of the metric-parsing core of a Redis status collector
(`src/main.go`).  Strings are modelled as lists of characters (`Str`);
the input blob is modelled as its list of lines, since the scanner
(`bufio.Scanner` with the default line splitter) processes the text
line by line and the line-ending convention is irrelevant to the logic.

Embedded functions, in source order:
  * `parseKVLine`   — Go `parseKVLine(section, prefix, v string) Metrics`
  * `parseLine`     — Go `parseLine(section, line string) (Metrics, error)`,
                      the error channel rendered as `Except String`
  * `scanFrom`      — the scanning loop inside Go `fetchMetrics`,
                      with the mutable section variable `s` passed as state
  * `fetchMetrics`  — Go `fetchMetrics`, its redis reply abstracted as an
                      `Except` (an error of the underlying read propagates,
                      a successful read is scanned)
-/

/-- Strings as character lists (Go strings, byte/char sequences). -/
abbrev Str := List Char

/-- Coerce a Lean string literal to the character-list model. -/
def str (s : String) : Str := s.toList

/-- Go `type Metric struct { Section, Prefix, Key, Value string }`.
The second field is named `Pfx` here (for the Go field holding the
original compound key of an expanded sub-format entry). -/
structure Metric where
  Section : Str
  Pfx : Str
  Key : Str
  Value : Str
deriving Repr, DecidableEq

/-- Go `strings.SplitN(s, sep, 2)` for a one-character separator:
`none` when the separator does not occur (Go returns one part),
`some (a, b)` splitting at the first occurrence (Go returns two parts,
the second keeping any further separators). -/
def splitFirst (c : Char) : Str → Option (Str × Str)
  | [] => none
  | x :: xs =>
    if x = c then some ([], xs)
    else (splitFirst c xs).map (fun p => (x :: p.1, p.2))

/-- Go `strings.Split(s, sep)` for a one-character separator: splits at
every occurrence; the empty string yields one empty part. -/
def splitAll (c : Char) : Str → List Str
  | [] => [[]]
  | x :: xs =>
    if x = c then [] :: splitAll c xs
    else
      match splitAll c xs with
      | [] => [[x]]
      | y :: ys => (x :: y) :: ys

/-- Go `strings.HasPrefix(line, "#")`. -/
def startsWithHash : Str → Bool
  | [] => false
  | c :: _ => c = '#'

/-- Go `unicode.IsSpace` (the code points Go trims in `strings.TrimSpace`). -/
def goIsSpace (c : Char) : Bool :=
  (9 ≤ c.toNat && c.toNat ≤ 13) || c.toNat = 32 || c.toNat = 0x85 || c.toNat = 0xA0 ||
  c.toNat = 0x1680 || (0x2000 ≤ c.toNat && c.toNat ≤ 0x200A) ||
  c.toNat = 0x2028 || c.toNat = 0x2029 || c.toNat = 0x202F ||
  c.toNat = 0x205F || c.toNat = 0x3000

/-- Go `strings.TrimSpace`: drop the space characters on both ends. -/
def goTrimSpace (s : Str) : Str :=
  ((s.dropWhile goIsSpace).reverse.dropWhile goIsSpace).reverse

/-- Go `strings.ToLower`, modelled on the ASCII range (the only case
mapping exercised by the Redis INFO format). -/
def goToLower (s : Str) : Str :=
  s.map (fun c => if 65 ≤ c.toNat ∧ c.toNat ≤ 90 then Char.ofNat (c.toNat + 32) else c)

/-- Go `strings.TrimPrefix(line, "#")`: drop a leading `#` when present. -/
def trimHash : Str → Str
  | '#' :: rest => rest
  | l => l

/-- The key marker of the command-statistics sub-format, Go `"cmdstat_"`. -/
def cmdstatMark : Str := ['c', 'm', 'd', 's', 't', 'a', 't', '_']

/-- The key marker of the per-database sub-format, Go `"db"`. -/
def dbMark : Str := ['d', 'b']

/-- The body of Go `parseKVLine`'s loop: split one comma-separated
candidate on its first `=`; a candidate with no `=` is skipped (`continue`),
the others become records carrying the compound key in the `Pfx` field. -/
def pairRec (sec pfx pair : Str) : Option Metric :=
  match splitFirst '=' pair with
  | some t => some ⟨sec, pfx, t.1, t.2⟩
  | none => none

/-- Go `parseKVLine(section, prefix, v)`: split `v` on commas and keep the
record of every candidate that splits on `=`. -/
def parseKVLine (sec pfx v : Str) : List Metric :=
  (splitAll ',' v).filterMap (pairRec sec pfx)

/-- Go `parseLine(section, line)`: `#`-lines give no records and no error;
a line with no colon is an error (`SplitN` returned one part, not two);
otherwise the key before the first colon selects either the sub-format
expansion (keys starting `cmdstat_` or `db`) or a single plain record. -/
def parseLine (sec line : Str) : Except String (List Metric) :=
  if startsWithHash line then Except.ok []
  else
    match splitFirst ':' line with
    | none => Except.error "expected 2 parts, got 1"
    | some kv =>
      if cmdstatMark.isPrefixOf kv.1 || dbMark.isPrefixOf kv.1 then
        Except.ok (parseKVLine sec kv.1 kv.2)
      else
        Except.ok [⟨sec, [], kv.1, kv.2⟩]

/-- The records the scanner keeps from a line: Go `mms, _ := parseLine(s, line)`
discards the error and ranges over the (then empty) record list. -/
def parseRecs (sec line : Str) : List Metric :=
  match parseLine sec line with
  | Except.ok ms => ms
  | Except.error _ => []

/-- The section name a header line installs, Go
`strings.ToLower(strings.TrimSpace(strings.TrimPrefix(line, "#")))`. -/
def headerOf (line : Str) : Str :=
  goToLower (goTrimSpace (trimHash line))

/-- Go `fetchMetrics`' scanning loop: skip empty lines, update the section
state on `#`-lines, append the parsed records of every other line. -/
def scanFrom : Str → List Str → List Metric
  | _, [] => []
  | s, line :: rest =>
    if line = [] then scanFrom s rest
    else if startsWithHash line then
      scanFrom (headerOf line) rest
    else
      parseRecs s line ++ scanFrom s rest

/-- Go `fetchMetrics`: a failed read of the source text propagates its
error; a successful read is scanned starting from the empty section. -/
def fetchMetrics (reply : Except String (List Str)) : Except String (List Metric) :=
  match reply with
  | Except.error e => Except.error e
  | Except.ok lines => Except.ok (scanFrom [] lines)

/-- The glue of the sub-format: `kvJoin [(a, u), (b, w)]` is the value
string `a=u,b=w`. -/
def kvJoin : List (Str × Str) → Str
  | [] => []
  | [p] => p.1 ++ '=' :: p.2
  | p :: rest => p.1 ++ '=' :: p.2 ++ ',' :: kvJoin rest

/-- The value of the scanner's section variable after it has consumed a
list of lines, starting from state `s` (the fold of the loop's updates). -/
def stateAfter : Str → List Str → Str
  | s, [] => s
  | s, line :: rest =>
    stateAfter (if startsWithHash line then headerOf line else s) rest

/-- The most recent line of `pre` that begins with `#`, if any: the
header line governing whatever comes right after `pre`. -/
def lastHeaderOpt : List Str → Option Str
  | [] => none
  | line :: rest =>
    match lastHeaderOpt rest with
    | some h => some h
    | none => if startsWithHash line then some line else none

/-- The section the specification assigns to a record whose line is
preceded by the lines `pre`: the lowercase, whitespace-trimmed remainder
(after stripping the leading `#`) of the most recent `#`-line of `pre`,
or the empty string if `pre` has no such line. -/
def sectionPerSpec (pre : List Str) : Str :=
  match lastHeaderOpt pre with
  | some h => goToLower (goTrimSpace (h.drop 1))
  | none => []

deriving instance DecidableEq for Except

example : parseLine [] (str "a:b:c") =
    Except.ok [⟨[], [], str "a", str "b:c"⟩] := by decide

example : parseRecs (str "s") (str "cmdstat_get: calls=3,badpair,usec=5") =
    [⟨str "s", str "cmdstat_get", str " calls", str "3"⟩,
     ⟨str "s", str "cmdstat_get", str "usec", str "5"⟩] := by decide

example : scanFrom [] [str "#Server", str "role:master", str "#Clients", str "connected:4"] =
    [⟨str "server", [], str "role", str "master"⟩,
     ⟨str "clients", [], str "connected", str "4"⟩] := by decide

example : parseRecs [] (str "dbsize:10") = [] := by decide

/-! ### Facts about the splitting primitives -/

theorem splitFirst_of_not_mem {c : Char} {s : Str} (h : c ∉ s) : splitFirst c s = none := by
  induction s with
  | nil => rfl
  | cons x xs ih =>
    have hx : ¬ x = c := fun he => h (by rw [← he]; exact List.mem_cons_self x xs)
    have hm : c ∉ xs := fun hm => h (List.mem_cons_of_mem x hm)
    simp [splitFirst, hx, ih hm]

theorem splitFirst_append {c : Char} (a b : Str) (h : c ∉ a) :
    splitFirst c (a ++ c :: b) = some (a, b) := by
  induction a with
  | nil => simp [splitFirst]
  | cons x xs ih =>
    have hx : ¬ x = c := fun he => h (by rw [← he]; exact List.mem_cons_self x xs)
    have hm : c ∉ xs := fun hm => h (List.mem_cons_of_mem x hm)
    simp [splitFirst, hx, ih hm]

theorem splitAll_ne_nil (c : Char) (s : Str) : splitAll c s ≠ [] := by
  cases s with
  | nil => exact fun h => List.noConfusion h
  | cons x xs =>
    simp only [splitAll]
    split
    · exact fun h => List.noConfusion h
    · rcases hs : splitAll c xs with _ | ⟨y, ys⟩ <;> simp [hs]

theorem splitAll_of_not_mem {c : Char} {s : Str} (h : c ∉ s) : splitAll c s = [s] := by
  induction s with
  | nil => rfl
  | cons x xs ih =>
    have hx : ¬ x = c := fun he => h (by rw [← he]; exact List.mem_cons_self x xs)
    have hm : c ∉ xs := fun hm => h (List.mem_cons_of_mem x hm)
    simp [splitAll, hx, ih hm]

theorem splitAll_append (c : Char) (x y : Str) :
    splitAll c (x ++ c :: y) = splitAll c x ++ splitAll c y := by
  induction x with
  | nil => simp [splitAll]
  | cons a as ih =>
    rcases hs : splitAll c as with _ | ⟨z, zs⟩
    · exact absurd hs (splitAll_ne_nil c as)
    · by_cases ha : a = c
      · subst ha
        simp [splitAll, ih]
      · simp [splitAll, ha, ih, hs]

/-! ### Facts about the sub-format expander -/

theorem pairRec_eq_some {sec pfx pair : Str} {m : Metric}
    (h : pairRec sec pfx pair = some m) : m.Section = sec ∧ m.Pfx = pfx := by
  unfold pairRec at h
  rcases hsp : splitFirst '=' pair with _ | t <;> rw [hsp] at h
  · exact Option.noConfusion h
  · cases Option.some.inj h
    exact ⟨rfl, rfl⟩

theorem mem_parseKVLine {sec pfx v : Str} {m : Metric} (h : m ∈ parseKVLine sec pfx v) :
    m.Section = sec ∧ m.Pfx = pfx := by
  simp only [parseKVLine, List.mem_filterMap] at h
  obtain ⟨pair, -, hf⟩ := h
  exact pairRec_eq_some hf

theorem parseKVLine_append (sec pfx v w : Str) :
    parseKVLine sec pfx (v ++ ',' :: w) =
      parseKVLine sec pfx v ++ parseKVLine sec pfx w := by
  simp [parseKVLine, splitAll_append, List.filterMap_append]

theorem parseKVLine_single (sec pfx a b : Str) (ha : '=' ∉ a)
    (hc : ',' ∉ a) (hb : ',' ∉ b) :
    parseKVLine sec pfx (a ++ '=' :: b) = [⟨sec, pfx, a, b⟩] := by
  have hmem : ',' ∉ a ++ '=' :: b := by
    intro hx
    rcases List.mem_append.mp hx with h1 | h2
    · exact hc h1
    · rcases List.mem_cons.mp h2 with h3 | h4
      · exact absurd h3 (by decide)
      · exact hb h4
  simp [parseKVLine, splitAll_of_not_mem hmem, pairRec, splitFirst_append a b ha]

theorem parseKVLine_of_no_eq {sec pfx v : Str}
    (hv : ∀ chunk ∈ splitAll ',' v, '=' ∉ chunk) :
    parseKVLine sec pfx v = [] := by
  simp only [parseKVLine, List.filterMap_eq_nil_iff]
  intro pair hp
  simp [pairRec, splitFirst_of_not_mem (hv pair hp)]

theorem parseKVLine_kvJoin (sec pfx : Str) (pairs : List (Str × Str))
    (h : ∀ p ∈ pairs, '=' ∉ p.1 ∧ ',' ∉ p.1 ∧ ',' ∉ p.2) :
    parseKVLine sec pfx (kvJoin pairs) =
      pairs.map (fun p => ⟨sec, pfx, p.1, p.2⟩) := by
  induction pairs with
  | nil => rfl
  | cons p rest ih =>
    cases rest with
    | nil =>
      obtain ⟨h1, h2, h3⟩ := h p (List.mem_cons_self p _)
      simp [kvJoin, parseKVLine_single sec pfx p.1 p.2 h1 h2 h3]
    | cons q rs =>
      obtain ⟨h1, h2, h3⟩ := h p (List.mem_cons_self p _)
      have hrest : ∀ x ∈ q :: rs, '=' ∉ x.1 ∧ ',' ∉ x.1 ∧ ',' ∉ x.2 :=
        fun x hx => h x (List.mem_cons_of_mem p hx)
      have hj : kvJoin (p :: q :: rs) = (p.1 ++ '=' :: p.2) ++ ',' :: kvJoin (q :: rs) := by
        simp [kvJoin]
      rw [hj, parseKVLine_append, parseKVLine_single sec pfx p.1 p.2 h1 h2 h3, ih hrest]
      simp

/-! ### Facts about the field parser -/

theorem mem_parseRecs_cases {sec line : Str} {m : Metric} (h : m ∈ parseRecs sec line) :
    ∃ k v, splitFirst ':' line = some (k, v) ∧ startsWithHash line = false ∧
      (((cmdstatMark.isPrefixOf k || dbMark.isPrefixOf k) = true ∧ m ∈ parseKVLine sec k v) ∨
       ((cmdstatMark.isPrefixOf k || dbMark.isPrefixOf k) = false ∧ m = ⟨sec, [], k, v⟩)) := by
  unfold parseRecs parseLine at h
  by_cases hh : startsWithHash line = true
  · simp [hh] at h
  · rw [if_neg hh] at h
    rcases hsp : splitFirst ':' line with _ | kv <;> rw [hsp] at h
    · simp at h
    · refine ⟨kv.1, kv.2, by simp [hsp], Bool.eq_false_iff.mpr hh, ?_⟩
      by_cases hk : (cmdstatMark.isPrefixOf kv.1 || dbMark.isPrefixOf kv.1) = true
      · exact Or.inl ⟨hk, by simpa [hk] using h⟩
      · exact Or.inr ⟨Bool.eq_false_iff.mpr hk, by simpa [hk] using h⟩

theorem mem_parseRecs_section {sec line : Str} {m : Metric}
    (h : m ∈ parseRecs sec line) : m.Section = sec := by
  obtain ⟨k, v, -, -, hc⟩ := mem_parseRecs_cases h
  rcases hc with ⟨-, hm⟩ | ⟨-, hm⟩
  · exact (mem_parseKVLine hm).1
  · rw [hm]

/-! ### Facts about the scanner -/

theorem lastHeaderOpt_hash {pre : List Str} {h : Str}
    (hl : lastHeaderOpt pre = some h) : startsWithHash h = true := by
  induction pre with
  | nil => exact Option.noConfusion hl
  | cons line rest ih =>
    unfold lastHeaderOpt at hl
    rcases hr : lastHeaderOpt rest with _ | h' <;> rw [hr] at hl
    · by_cases hs : startsWithHash line = true
      · rw [if_pos hs] at hl
        cases Option.some.inj hl
        exact hs
      · rw [if_neg hs] at hl
        exact Option.noConfusion hl
    · cases Option.some.inj hl
      exact ih hr

theorem stateAfter_eq (s : Str) (pre : List Str) :
    stateAfter s pre = (lastHeaderOpt pre).elim s headerOf := by
  induction pre generalizing s with
  | nil => rfl
  | cons line rest ih =>
    unfold stateAfter lastHeaderOpt
    rw [ih]
    rcases hr : lastHeaderOpt rest with _ | h'
    · by_cases hs : startsWithHash line = true <;> simp [hs]
    · simp

theorem trimHash_eq_drop {line : Str} (h : startsWithHash line = true) :
    trimHash line = line.drop 1 := by
  cases line with
  | nil => exact Bool.noConfusion h
  | cons c cs =>
    have hc : c = '#' := by simpa [startsWithHash] using h
    subst hc
    rfl

theorem stateAfter_nil_eq_spec (pre : List Str) :
    stateAfter [] pre = sectionPerSpec pre := by
  rw [stateAfter_eq]
  unfold sectionPerSpec
  rcases hl : lastHeaderOpt pre with _ | h
  · rfl
  · simp [headerOf, trimHash_eq_drop (lastHeaderOpt_hash hl)]

theorem mem_scanFrom {s : Str} {lines : List Str} {m : Metric}
    (h : m ∈ scanFrom s lines) :
    ∃ pre line post, lines = pre ++ line :: post ∧ line ≠ [] ∧
      startsWithHash line = false ∧ m ∈ parseRecs (stateAfter s pre) line := by
  induction lines generalizing s with
  | nil => simp [scanFrom] at h
  | cons l rest ih =>
    unfold scanFrom at h
    by_cases he : l = []
    · rw [if_pos he] at h
      obtain ⟨pre, line, post, hd, h1, h2, h3⟩ := ih h
      refine ⟨l :: pre, line, post, by simp [hd], h1, h2, ?_⟩
      have : startsWithHash l = false := by rw [he]; rfl
      simpa [stateAfter, this] using h3
    · rw [if_neg he] at h
      by_cases hs : startsWithHash l = true
      · rw [if_pos hs] at h
        obtain ⟨pre, line, post, hd, h1, h2, h3⟩ := ih h
        refine ⟨l :: pre, line, post, by simp [hd], h1, h2, ?_⟩
        simpa [stateAfter, hs] using h3
      · rw [if_neg hs] at h
        rcases List.mem_append.mp h with hm | hm
        · exact ⟨[], l, rest, rfl, he, Bool.eq_false_iff.mpr hs, hm⟩
        · obtain ⟨pre, line, post, hd, h1, h2, h3⟩ := ih hm
          refine ⟨l :: pre, line, post, by simp [hd], h1, h2, ?_⟩
          simpa [stateAfter, hs] using h3

theorem isPrefixOf_append (a b : Str) : a.isPrefixOf (a ++ b) = true := by
  induction a with
  | nil => cases b <;> rfl
  | cons x xs ih => simp [List.isPrefixOf, ih]

theorem marks_shape {k : Str}
    (hk : (cmdstatMark.isPrefixOf k || dbMark.isPrefixOf k) = true) :
    ∃ c cs, k = c :: cs ∧ (c = 'c' ∨ c = 'd') := by
  cases k with
  | nil => exact absurd hk (by decide)
  | cons c cs =>
    refine ⟨c, cs, rfl, ?_⟩
    rcases (Bool.or_eq_true _ _).mp hk with h1 | h1
    · left
      simp [cmdstatMark, List.isPrefixOf, Bool.and_eq_true] at h1
      exact h1.1.symm
    · right
      simp [dbMark, List.isPrefixOf, Bool.and_eq_true] at h1
      exact h1.1.symm

theorem startsWithHash_marks {k : Str} (rest : Str)
    (hk : (cmdstatMark.isPrefixOf k || dbMark.isPrefixOf k) = true) :
    startsWithHash (k ++ rest) = false := by
  obtain ⟨c, cs, hke, hc⟩ := marks_shape hk
  subst hke
  rcases hc with rfl | rfl <;> rfl

/-! ### Claims -/

/-- Claim C1, amended: for every line that does not begin with `#`,
contains at least one colon, and whose key (the text before the first
colon) starts with neither `cmdstat_` nor `db`, `parseLine` returns
exactly one record whose section is the given section, whose prefix is
empty, whose key is the text before the first colon, and whose value is
the entire remainder after the first colon, embedded colons included
(`v` here is arbitrary and may contain colons). -/
theorem claimC1_plain_record (sec k v : Str) (hk : ':' ∉ k)
    (hh : startsWithHash (k ++ ':' :: v) = false)
    (hc : cmdstatMark.isPrefixOf k = false) (hd : dbMark.isPrefixOf k = false) :
    parseLine sec (k ++ ':' :: v) = Except.ok [⟨sec, [], k, v⟩] := by
  unfold parseLine
  rw [hh, splitFirst_append k v hk]
  simp [hc, hd]

/-- Claim C1 fails as stated on the line `#a:b`: it contains a colon, its
key `#a` starts with neither `cmdstat_` nor `db`, yet `parseLine` returns
zero records (the `#` guard fires before the key/value split). -/
theorem claimC1_counterexample :
    ':' ∈ str "#a:b" ∧
    splitFirst ':' (str "#a:b") = some (str "#a", str "b") ∧
    cmdstatMark.isPrefixOf (str "#a") = false ∧
    dbMark.isPrefixOf (str "#a") = false ∧
    parseLine [] (str "#a:b") = Except.ok [] := by decide

/-- Witness for C1 at a concrete input whose value has an embedded colon. -/
theorem claimC1_witness :
    parseLine (str "s") (str "x" ++ ':' :: str "b:c") =
      Except.ok [⟨str "s", [], str "x", str "b:c"⟩] :=
  claimC1_plain_record (str "s") (str "x") (str "b:c")
    (by decide) (by decide) (by decide) (by decide)

/-- Claim C2, amended: only lines with zero colons (and not beginning
with `#`) make `parseLine` signal a parse failure; the scanner then
appends zero records for that line and continues with the rest. -/
theorem claimC2_no_colon (s line : Str) (rest : List Str) (h : ':' ∉ line)
    (hh : startsWithHash line = false) :
    (∃ e, parseLine s line = Except.error e) ∧
      scanFrom s (line :: rest) = scanFrom s rest := by
  have hsp := splitFirst_of_not_mem h
  have herr : parseLine s line = Except.error "expected 2 parts, got 1" := by
    unfold parseLine
    rw [hh, hsp]
    rfl
  refine ⟨⟨_, herr⟩, ?_⟩
  have hrecs : parseRecs s line = [] := by
    unfold parseRecs
    rw [herr]
  by_cases he : line = []
  · simp [scanFrom, he]
  · simp [scanFrom, he, hh, hrecs]

/-- Claim C2 fails as stated for lines with more than one colon: `a:b:c`
has two colons, yet `parseLine` succeeds with one record (Go
`strings.SplitN(line, ":", 2)` still returns exactly two parts). -/
theorem claimC2_counterexample :
    (str "a:b:c").count ':' = 2 ∧
    parseLine [] (str "a:b:c") = Except.ok [⟨[], [], str "a", str "b:c"⟩] := by
  decide

/-- Witness for C2 at a concrete colon-free line. -/
theorem claimC2_witness :
    (∃ e, parseLine [] (str "noseparator") = Except.error e) ∧
      scanFrom [] [str "noseparator"] = scanFrom [] [] :=
  claimC2_no_colon [] (str "noseparator") [] (by decide) (by decide)

/-- Claim C10: a line whose key starts with `cmdstat_` or `db` and whose
value has no comma-separated candidate containing `=` (an empty value
included) produces zero records and no error: the whole line is silently
swallowed. -/
theorem claimC10_swallowed (sec k v : Str)
    (hk : (cmdstatMark.isPrefixOf k || dbMark.isPrefixOf k) = true)
    (hck : ':' ∉ k)
    (hv : ∀ chunk ∈ splitAll ',' v, '=' ∉ chunk) :
    parseLine sec (k ++ ':' :: v) = Except.ok [] := by
  unfold parseLine
  rw [startsWithHash_marks (':' :: v) hk, splitFirst_append k v hck]
  simp [hk, parseKVLine_of_no_eq hv]

/-- Witness for C10: the scalar metric `dbsize:10` yields no record. -/
theorem claimC10_witness :
    parseLine [] (str "dbsize" ++ ':' :: str "10") = Except.ok [] :=
  claimC10_swallowed [] (str "dbsize") (str "10")
    (by decide) (by decide) (by decide)

/-- Claim C3: for a key `cmdstat_<sfx>` whose value is the comma-separated
list of `name=value` pairs `kvJoin pairs` (names without `=` or `,`,
values without `,`), `parseLine` yields one record per pair, each carrying
the compound key as its prefix, in exactly the order the pairs appear in
the value string. -/
theorem claimC3_expander (sec sfx : Str) (pairs : List (Str × Str)) (hs : ':' ∉ sfx)
    (hp : ∀ p ∈ pairs, '=' ∉ p.1 ∧ ',' ∉ p.1 ∧ ',' ∉ p.2) :
    parseLine sec ((cmdstatMark ++ sfx) ++ ':' :: kvJoin pairs) =
      Except.ok (pairs.map (fun p => ⟨sec, cmdstatMark ++ sfx, p.1, p.2⟩)) := by
  have hb : (cmdstatMark.isPrefixOf (cmdstatMark ++ sfx) ||
      dbMark.isPrefixOf (cmdstatMark ++ sfx)) = true := by
    rw [isPrefixOf_append]
    rfl
  have hck : ':' ∉ cmdstatMark ++ sfx := by
    intro hx
    rcases List.mem_append.mp hx with h1 | h2
    · exact absurd h1 (by decide)
    · exact hs h2
  unfold parseLine
  rw [startsWithHash_marks _ hb, splitFirst_append _ _ hck]
  simp [hb, parseKVLine_kvJoin sec (cmdstatMark ++ sfx) pairs hp]

/-- Witness for C3 at the two-pair input `cmdstat_X:a=1,b=2`. -/
theorem claimC3_witness :
    parseLine (str "s")
        ((cmdstatMark ++ str "X") ++ ':' :: kvJoin [(str "a", str "1"), (str "b", str "2")]) =
      Except.ok [⟨str "s", cmdstatMark ++ str "X", str "a", str "1"⟩,
                 ⟨str "s", cmdstatMark ++ str "X", str "b", str "2"⟩] :=
  claimC3_expander (str "s") (str "X") [(str "a", str "1"), (str "b", str "2")]
    (by decide) (by decide)

/-- Claim C4: a comma-separated candidate without `=` is silently
discarded while its sibling pairs are still produced (the expander has no
error channel at all), and in particular `cmdstat_get: calls=3,badpair,usec=5`
yields exactly the two records for `calls` and `usec`. -/
theorem claimC4_bad_pair (sec pfx v w bad : Str) (hb1 : ',' ∉ bad) (hb2 : '=' ∉ bad) :
    parseKVLine sec pfx (v ++ ',' :: bad ++ ',' :: w) =
      parseKVLine sec pfx v ++ parseKVLine sec pfx w ∧
    parseRecs [] (str "cmdstat_get: calls=3,badpair,usec=5") =
      [⟨[], str "cmdstat_get", str " calls", str "3"⟩,
       ⟨[], str "cmdstat_get", str "usec", str "5"⟩] := by
  constructor
  · rw [parseKVLine_append, parseKVLine_append]
    have hbad : parseKVLine sec pfx bad = [] := by
      apply parseKVLine_of_no_eq
      intro chunk hcm
      rw [splitAll_of_not_mem hb1] at hcm
      rcases List.mem_singleton.mp hcm with rfl
      exact hb2
    rw [hbad]
    simp
  · decide

/-- Witness for C4: `badpair` between `calls=3` and `usec=5` is dropped. -/
theorem claimC4_witness :
    parseKVLine [] (str "p") (str "calls=3" ++ ',' :: str "badpair" ++ ',' :: str "usec=5") =
      parseKVLine [] (str "p") (str "calls=3") ++ parseKVLine [] (str "p") (str "usec=5") ∧
    parseRecs [] (str "cmdstat_get: calls=3,badpair,usec=5") =
      [⟨[], str "cmdstat_get", str " calls", str "3"⟩,
       ⟨[], str "cmdstat_get", str "usec", str "5"⟩] :=
  claimC4_bad_pair [] (str "p") (str "calls=3") (str "usec=5") (str "badpair")
    (by decide) (by decide)

/-- Claim C9: neither the field parser nor the expander trims whitespace
from keys or values — `key: value` keeps the value `" value"`,
`cmdstat_get: calls=3` keeps the sub-key `" calls"`, a general sub-pair
is reproduced character-for-character — while section-header text is
whitespace-trimmed (and lowercased). -/
theorem claimC9_no_trim (sec pfx a b : Str) (ha : '=' ∉ a) (hc : ',' ∉ a) (hb : ',' ∉ b) :
    parseRecs sec (str "key: value") = [⟨sec, [], str "key", str " value"⟩] ∧
    parseRecs sec (str "cmdstat_get: calls=3") =
      [⟨sec, str "cmdstat_get", str " calls", str "3"⟩] ∧
    parseKVLine sec pfx (a ++ '=' :: b) = [⟨sec, pfx, a, b⟩] ∧
    scanFrom [] [str "#  Spaced Header  ", str "k: v"] =
      [⟨str "spaced header", [], str "k", str " v"⟩] :=
  ⟨rfl, rfl, parseKVLine_single sec pfx a b ha hc hb, by decide⟩

/-- Witness for C9 with a space-carrying sub-pair key. -/
theorem claimC9_witness :
    parseRecs (str "s") (str "key: value") = [⟨str "s", [], str "key", str " value"⟩] ∧
    parseRecs (str "s") (str "cmdstat_get: calls=3") =
      [⟨str "s", str "cmdstat_get", str " calls", str "3"⟩] ∧
    parseKVLine (str "s") (str "p") (str " calls" ++ '=' :: str "3") =
      [⟨str "s", str "p", str " calls", str "3"⟩] ∧
    scanFrom [] [str "#  Spaced Header  ", str "k: v"] =
      [⟨str "spaced header", [], str "k", str " v"⟩] :=
  claimC9_no_trim (str "s") (str "p") (str " calls") (str "3")
    (by decide) (by decide) (by decide)

/-- Claim C5: every record a scan produces originates at some line of the
input, and its section field equals the lowercase, whitespace-trimmed
remainder (after stripping the leading `#`) of the most recent `#`-line
before that line, or the empty string when no header precedes it
(`sectionPerSpec` of the preceding lines). -/
theorem claimC5_section (lines : List Str) (m : Metric) (h : m ∈ scanFrom [] lines) :
    ∃ pre line post, lines = pre ++ line :: post ∧
      m ∈ parseRecs (sectionPerSpec pre) line ∧ m.Section = sectionPerSpec pre := by
  obtain ⟨pre, line, post, hd, -, -, hm⟩ := mem_scanFrom h
  rw [stateAfter_nil_eq_spec] at hm
  exact ⟨pre, line, post, hd, hm, mem_parseRecs_section hm⟩

/-- Witness for C5 on a two-line input with one header. -/
theorem claimC5_witness :
    ∃ pre line post,
      [str "#Server", str "role:master"] = pre ++ line :: post ∧
      (⟨str "server", [], str "role", str "master"⟩ : Metric) ∈
        parseRecs (sectionPerSpec pre) line ∧
      (⟨str "server", [], str "role", str "master"⟩ : Metric).Section =
        sectionPerSpec pre :=
  claimC5_section [str "#Server", str "role:master"]
    ⟨str "server", [], str "role", str "master"⟩ (by decide)

/-- Claim C6: empty lines are no-ops for the scanner — inserting any
number of blank lines at any position of the input leaves the produced
record sequence unchanged. -/
theorem claimC6_blank_lines (s : Str) (xs ys : List Str) (n : Nat) :
    scanFrom s (xs ++ List.replicate n [] ++ ys) = scanFrom s (xs ++ ys) := by
  induction xs generalizing s with
  | nil =>
    simp only [List.nil_append]
    induction n with
    | zero => rfl
    | succ k ihn => simpa [List.replicate_succ, scanFrom] using ihn
  | cons x xs ih =>
    have ih2 : ∀ t, scanFrom t (xs ++ (List.replicate n [] ++ ys)) = scanFrom t (xs ++ ys) := by
      intro t
      rw [← List.append_assoc]
      exact ih t
    by_cases he : x = []
    · simp [scanFrom, he, ih2]
    · by_cases hs : startsWithHash x = true
      · simp [scanFrom, he, hs, ih2]
      · simp [scanFrom, he, hs, ih2]

/-- Claim C7: only a failure of the underlying read escapes
`fetchMetrics`; a successful read always yields a record sequence with no
error, and a per-line parse failure is absorbed by the scanner, which
keeps scanning the remaining lines. -/
theorem claimC7_error_policy :
    (∀ e, fetchMetrics (Except.error e) = Except.error e) ∧
    (∀ lines, ∃ ms, fetchMetrics (Except.ok lines) = Except.ok ms) ∧
    (∀ s line rest, (∃ e, parseLine s line = Except.error e) →
      scanFrom s (line :: rest) = scanFrom s rest) := by
  refine ⟨fun e => rfl, fun lines => ⟨scanFrom [] lines, rfl⟩, ?_⟩
  rintro s line rest ⟨e, he⟩
  by_cases hel : line = []
  · simp [scanFrom, hel]
  · have hh : startsWithHash line = false := by
      cases hx : startsWithHash line
      · rfl
      · unfold parseLine at he
        rw [hx] at he
        simp at he
    have hrecs : parseRecs s line = [] := by
      unfold parseRecs
      rw [he]
    simp [scanFrom, hel, hh, hrecs]

/-- Witness for C7: a read error propagates, a successful read with a
malformed line still returns a sequence, and the malformed line is
skipped while scanning continues. -/
theorem claimC7_witness :
    fetchMetrics (Except.error "read failed") = Except.error "read failed" ∧
    (∃ ms, fetchMetrics (Except.ok [str "garbage"]) = Except.ok ms) ∧
    scanFrom [] [str "garbage", str "a:1"] = scanFrom [] [str "a:1"] :=
  ⟨claimC7_error_policy.1 "read failed",
   claimC7_error_policy.2.1 [str "garbage"],
   claimC7_error_policy.2.2 [] (str "garbage") [str "a:1"]
     ⟨"expected 2 parts, got 1", by decide⟩⟩

/-- Claim C8: every record a scan produces comes from a key/value split
of its line, and its prefix is non-empty exactly when the key starts
with `cmdstat_` or `db` and the record came out of the sub-format
expansion, in which case the prefix is that compound key; a record from
the plain branch always has an empty prefix. -/
theorem claimC8_pfx_discipline (s : Str) (lines : List Str) (m : Metric)
    (h : m ∈ scanFrom s lines) :
    ∃ sec line k v, splitFirst ':' line = some (k, v) ∧
      (((cmdstatMark.isPrefixOf k || dbMark.isPrefixOf k) = true ∧
          m.Pfx = k ∧ m.Pfx ≠ [] ∧ m ∈ parseKVLine sec k v) ∨
       ((cmdstatMark.isPrefixOf k || dbMark.isPrefixOf k) = false ∧
          m.Pfx = [] ∧ m = ⟨sec, [], k, v⟩)) := by
  obtain ⟨pre, line, post, -, -, -, hm⟩ := mem_scanFrom h
  obtain ⟨k, v, hsp, -, hc⟩ := mem_parseRecs_cases hm
  refine ⟨stateAfter s pre, line, k, v, hsp, ?_⟩
  rcases hc with ⟨hk, hmem⟩ | ⟨hk, hme⟩
  · obtain ⟨c, cs, hke, -⟩ := marks_shape hk
    have hp := (mem_parseKVLine hmem).2
    refine Or.inl ⟨hk, hp, ?_, hmem⟩
    rw [hp, hke]
    exact fun hx => List.noConfusion hx
  · exact Or.inr ⟨hk, by rw [hme], hme⟩

/-- Witness for C8 on a scan containing one expanded `db`-line. -/
theorem claimC8_witness :
    ∃ sec line k v, splitFirst ':' line = some (k, v) ∧
      (((cmdstatMark.isPrefixOf k || dbMark.isPrefixOf k) = true ∧
          (⟨[], str "db0", str "keys", str "1"⟩ : Metric).Pfx = k ∧
          (⟨[], str "db0", str "keys", str "1"⟩ : Metric).Pfx ≠ [] ∧
          (⟨[], str "db0", str "keys", str "1"⟩ : Metric) ∈ parseKVLine sec k v) ∨
       ((cmdstatMark.isPrefixOf k || dbMark.isPrefixOf k) = false ∧
          (⟨[], str "db0", str "keys", str "1"⟩ : Metric).Pfx = [] ∧
          (⟨[], str "db0", str "keys", str "1"⟩ : Metric) = ⟨sec, [], k, v⟩)) :=
  claimC8_pfx_discipline [] [str "db0:keys=1"]
    ⟨[], str "db0", str "keys", str "1"⟩ (by decide)
